import Mathlib

/-!
Verification of the stroke/tile spatial-indexing engine of the drawing app
(`src/components/Canvas.tsx`).  Coordinates are modelled as rationals (`ℚ`);
JavaScript `undefined` produced by out-of-range array reads is modelled with
`Option`; the one place the code can throw at runtime (calling a method on the
`null` returned by `getTile`) is modelled by `erase` returning `none`.
-/

namespace Drawing

/-- A stroke: flat coordinate path `[x0, y0, x1, y1, ...]` exactly as the
source class stores it, plus its id and the cached start coordinates
(`undefined` until the first point is added, hence `Option`). -/
structure Stroke where
  id : ℕ
  path : List ℚ
  startX : Option ℚ
  startY : Option ℚ
deriving DecidableEq, Repr

/-- A JavaScript array read `l[i]`: `undefined` (here `none`) when the index is
negative or past the end. -/
def jsGet (l : List ℚ) (i : ℤ) : Option ℚ :=
  if 0 ≤ i then l.get? i.toNat else none

namespace Stroke

def getID (s : Stroke) : ℕ := s.id

/-- `isEmpty()`: `path.length === 0`. -/
def isEmpty (s : Stroke) : Bool := s.path.length == 0

/-- The `Stroke(path)` constructor: stores the path and, when it is nonempty,
caches `(path[0], path[1])` as the start (for a one-element path `path[1]` is
`undefined`, which `jsGet` reproduces). -/
def make (idv : ℕ) (p : List ℚ) : Stroke :=
  { id := idv, path := p
    startX := if p.length ≠ 0 then jsGet p 0 else none
    startY := if p.length ≠ 0 then jsGet p 1 else none }

/-- `getPathVertex(index)`: `[path[index*2], path[index*2+1]]` with unchecked
JavaScript indexing, so out-of-range components are `undefined` (`none`). -/
def getPathVertex (s : Stroke) (index : ℤ) : Option ℚ × Option ℚ :=
  (jsGet s.path (index * 2), jsGet s.path (index * 2 + 1))

/-- `Stroke.bezier`: `.5^2*x0 + 2*.5^2*x1 + .5^2*x2` componentwise, i.e. the
quadratic-curve midpoint `0.25*P0 + 0.5*P1 + 0.25*P2`. -/
def bezier (x0 y0 x1 y1 x2 y2 : ℚ) : ℚ × ℚ :=
  ((1/2)^2 * x0 + 2 * (1/2)^2 * x1 + (1/2)^2 * x2,
   (1/2)^2 * y0 + 2 * (1/2)^2 * y1 + (1/2)^2 * y2)

/-- The loop body of `smoothPath()`.  The source iterates
`for (let i = 2; i < this.getLength(); i++)` with `getLength() =
path.length / 2` (exact JS division); the guard `i < path.length / 2` is
equivalent to `2 * i < path.length` over the integers.  Each step reads the six
entries `path[2i-4] .. path[2i+1]` of the current (partially smoothed) array
and overwrites `path[2i-2], path[2i-1]`.  Fuel is the flat path length, ample
for the at most `path.length / 2 - 2` iterations. -/
def smoothLoop : ℕ → List ℚ → ℕ → List ℚ
  | 0, path, _ => path
  | fuel + 1, path, i =>
    if 2 * i < path.length then
      smoothLoop fuel
        ((path.set (2*i - 2)
            (bezier (path.getD (2*i - 4) 0) (path.getD (2*i - 3) 0)
                    (path.getD (2*i - 2) 0) (path.getD (2*i - 1) 0)
                    (path.getD (2*i) 0) (path.getD (2*i + 1) 0)).1).set (2*i - 1)
            (bezier (path.getD (2*i - 4) 0) (path.getD (2*i - 3) 0)
                    (path.getD (2*i - 2) 0) (path.getD (2*i - 1) 0)
                    (path.getD (2*i) 0) (path.getD (2*i + 1) 0)).2)
        (i + 1)
    else path

/-- `smoothPath()`: run the smoothing loop starting at `i = 2`. -/
def smoothPath (s : Stroke) : Stroke :=
  { s with path := smoothLoop s.path.length s.path 2 }

end Stroke

/-- `withinSquare(x1, y1, x2, y2, length)`:
`Math.abs(x1-x2) <= length && Math.abs(y1-y2) <= length`. -/
def withinSquare (x1 y1 x2 y2 len : ℚ) : Bool :=
  decide (|x1 - x2| ≤ len) && decide (|y1 - y2| ≤ len)

/-- The stroke iterator yields `getPathVertex(index)` for `index <
getLength()`; the erase inner loop hits when `withinSquare(x, y, coord[0],
coord[1], r)` holds.  A comparison against an `undefined` component is `NaN`
in JS and therefore false, modelled by the wildcard branch. -/
def strokeHit (s : Stroke) (x y r : ℚ) : Bool :=
  (List.range ((s.path.length + 1) / 2)).any fun i =>
    match s.path.get? (2*i), s.path.get? (2*i + 1) with
    | some a, some b => withinSquare x y a b r
    | _, _ => false

/-- A tile: bounds as stored by the source constructor plus the two parallel
lists `strokes` and `strokeIDs`. -/
structure Tile where
  startX : ℚ
  startY : ℚ
  endX : ℚ
  endY : ℚ
  strokes : List Stroke
  strokeIDs : List ℕ
deriving DecidableEq, Repr

namespace Tile

/-- `Tile.size = 2000`. -/
def size : ℚ := 2000

/-- The `Tile(x, y)` constructor: bounds `[x, x+size) × [y, y+size)`, empty
stroke lists. -/
def new (x y : ℚ) : Tile :=
  { startX := x, startY := y, endX := x + size, endY := y + size
    strokes := [], strokeIDs := [] }

/-- `addStroke(stroke)`: pushes onto both parallel arrays, unconditionally. -/
def addStroke (t : Tile) (s : Stroke) : Tile :=
  { t with strokes := t.strokes ++ [s], strokeIDs := t.strokeIDs ++ [s.getID] }

/-- `removeStroke(strokeID)`: no-op when `strokeIDs` does not contain the id,
otherwise filters both parallel arrays. -/
def removeStroke (t : Tile) (strokeID : ℕ) : Tile :=
  if t.strokeIDs.contains strokeID then
    { t with strokes := t.strokes.filter (fun s => s.getID != strokeID)
             strokeIDs := t.strokeIDs.filter (fun j => j != strokeID) }
  else t

/-- `isEmpty()`: `strokeIDs.length === 0`. -/
def isEmpty (t : Tile) : Bool := t.strokeIDs.length == 0

/-- `numElements()`: `strokes.length`. -/
def numElements (t : Tile) : ℕ := t.strokes.length

/-- `getStrokes()`. -/
def getStrokes (t : Tile) : List Stroke := t.strokes

/-- `enclosesVertex(x, y)`:
`x - startX >= 0 && endX - x > 0 && y - startY >= 0 && endY - y > 0`. -/
def enclosesVertex (t : Tile) (x y : ℚ) : Bool :=
  decide (x - t.startX ≥ 0) && decide (t.endX - x > 0) &&
  decide (y - t.startY ≥ 0) && decide (t.endY - y > 0)

end Tile

/-- The erase-relevant component state: the `isErasing` flag, the last
processed erase position `lastX`/`lastY`, and the tile list. -/
structure EraseState where
  isErasing : Bool
  lastX : ℚ
  lastY : ℚ
  tiles : List Tile
deriving DecidableEq, Repr

/-- `getTile(tiles, x, y)` returns the first tile enclosing the point, or
`null`; modelled by the index of that tile so the caller can write the update
back into the list. -/
def getTileIdx (tiles : List Tile) (x y : ℚ) : Option ℕ :=
  match tiles with
  | [] => none
  | t :: rest =>
    if t.enclosesVertex x y then some 0 else (getTileIdx rest x y).map (· + 1)

/-- Fallback stroke for list reads that are always in range. -/
def defaultStroke : Stroke := ⟨0, [], none, none⟩

/-- The labelled scan loop of `erase`: visit stroke indices from
`numElements() - 1` down to `0`; at the first stroke with a path point within
the erase radius 5 of the pointer, call `removeStroke` with that stroke's id
and break out; otherwise leave the tile unchanged. -/
def eraseScan (t : Tile) (x y : ℚ) : Tile :=
  match (List.range t.numElements).reverse.find?
      (fun i => strokeHit (t.strokes.getD i defaultStroke) x y 5) with
  | some i => t.removeStroke ((t.strokes.getD i defaultStroke).getID)
  | none => t

/-- `erase(pointerEvent)` at pointer position `(x, y)`.  Guards in source
order: the `isErasing` flag, movement suppression via
`withinSquare(x, y, lastX, lastY, 5)`, the tile lookup, and the
`currentTile.isEmpty()` check.  When the lookup returns `null` the source
dereferences it (`currentTile.isEmpty()`) and throws a TypeError, modelled by
`none`.  Past the guards, `lastX`/`lastY` are set and the scan runs. -/
def erase (s : EraseState) (x y : ℚ) : Option EraseState :=
  if s.isErasing = false then some s
  else if withinSquare x y s.lastX s.lastY 5 then some s
  else
    match getTileIdx s.tiles x y with
    | none => none
    | some ti =>
      if (s.tiles.getD ti (Tile.new 0 0)).isEmpty then some s
      else some { s with lastX := x, lastY := y
                         tiles := s.tiles.set ti
                           (eraseScan (s.tiles.getD ti (Tile.new 0 0)) x y) }

/-- Tile states reachable from a freshly constructed tile by any sequence of
`addStroke` and `removeStroke` calls. -/
inductive ReachableTile : Tile → Prop where
  | fresh (x y : ℚ) : ReachableTile (Tile.new x y)
  | add (t : Tile) (s : Stroke) : ReachableTile t → ReachableTile (t.addStroke s)
  | remove (t : Tile) (k : ℕ) : ReachableTile t → ReachableTile (t.removeStroke k)

/-! ### Concrete example data used by witnesses and counterexamples -/

/-- The hand-computed smoothing example path of the spec. -/
def exSmoothStroke : Stroke := Stroke.make 7 [0, 0, 10, 0, 10, 10, 0, 10]

/-- Three distinct strokes all passing through the point (100, 100). -/
def exS1 : Stroke := Stroke.make 0 [100, 100, 50, 50]
def exS2 : Stroke := Stroke.make 1 [100, 100, 60, 60]
def exS3 : Stroke := Stroke.make 2 [100, 100, 70, 70]

/-- A tile holding the three overlapping strokes, oldest first. -/
def exTile3 : Tile := (((Tile.new 0 0).addStroke exS1).addStroke exS2).addStroke exS3

/-- Erase state over `exTile3`, not suppressed at (100, 100). -/
def exState3 : EraseState := ⟨true, 0, 0, [exTile3]⟩

/-- Two distinct strokes through (100, 100): A drawn first, B drawn second. -/
def exA : Stroke := Stroke.make 0 [100, 100]
def exB : Stroke := Stroke.make 1 [100, 100, 60, 60]

def exTileAB : Tile := ((Tile.new 0 0).addStroke exA).addStroke exB
def exStateAB : EraseState := ⟨true, 0, 0, [exTileAB]⟩

/-- The tile after the first erase removed B. -/
def exTileA : Tile := (Tile.new 0 0).addStroke exA
def exStateA : EraseState := ⟨true, 0, 0, [exTileA]⟩

/-- A single-point stroke at (110, 100) and a state whose last erase position
is (100, 100). -/
def exNear : Stroke := Stroke.make 5 [110, 100]
def exTileNear : Tile := (Tile.new 0 0).addStroke exNear
def exStateNear : EraseState := ⟨true, 100, 100, [exTileNear]⟩

/-- A stroke lying under the pointer position (102, 103), for the suppressed
branch. -/
def exUnder : Stroke := Stroke.make 6 [102, 103]
def exTileUnder : Tile := (Tile.new 0 0).addStroke exUnder
def exStateUnder : EraseState := ⟨true, 100, 100, [exTileUnder]⟩

/-- A stroke far from the pointer, for the non-suppressed miss branch. -/
def exFar : Stroke := Stroke.make 8 [500, 500]
def exTileFar : Tile := (Tile.new 0 0).addStroke exFar
def exStateFar : EraseState := ⟨true, 50, 50, [exTileFar]⟩

/-- State with a single empty tile at the origin. -/
def exStateEmptyTile : EraseState := ⟨true, 0, 0, [Tile.new 0 0]⟩

/-- A one-point stroke, for the vertex-accessor claim. -/
def exShort : Stroke := Stroke.make 0 [1, 2]

/-- A reachable tile: fresh tile plus one `addStroke`. -/
def exTileR : Tile := (Tile.new 0 0).addStroke exShort

/-! ### Helper lemmas -/

lemma range_one : List.range 1 = [0] := rfl
lemma range_two : List.range 2 = [0, 1] := rfl
lemma range_three : List.range 3 = [0, 1, 2] := rfl

lemma getD_set_ne {α : Type} (a d : α) (l : List α) :
    ∀ i j : ℕ, i ≠ j → (l.set i a).getD j d = l.getD j d := by
  induction l with
  | nil => intro i j _; rfl
  | cons x xs ih =>
    intro i j h
    match i, j with
    | 0, 0 => exact absurd rfl h
    | 0, j + 1 => rfl
    | i + 1, 0 => rfl
    | i + 1, j + 1 => exact ih i j (fun e => h (by omega))

lemma getD_set_self {α : Type} (a d : α) (l : List α) :
    ∀ i : ℕ, i < l.length → (l.set i a).getD i d = a := by
  induction l with
  | nil => intro i h; simp at h
  | cons x xs ih =>
    intro i h
    match i with
    | 0 => rfl
    | i + 1 => exact ih i (by simpa using h)

lemma getD_mem {α : Type} (d : α) (l : List α) :
    ∀ i : ℕ, i < l.length → l.getD i d ∈ l := by
  induction l with
  | nil => intro i h; simp at h
  | cons x xs ih =>
    intro i h
    match i with
    | 0 => exact List.mem_cons_self x xs
    | i + 1 => exact List.mem_cons_of_mem x (ih i (by simpa using h))

lemma getD_concat_self {α : Type} (d b : α) (l : List α) :
    (l ++ [b]).getD l.length d = b := by
  induction l with
  | nil => rfl
  | cons x xs ih => exact ih

/-- Loop invariant of `smoothPath`.  Running the loop from index `i` on a path
of `N` points (flat length `2N`) with enough fuel: the length is preserved,
entries below `2i - 2` and from `2N - 2` on (the last point) are untouched,
and every point written at a step `k ≥ i` equals the bezier blend of the
already-smoothed previous point and the original current and next points. -/
lemma smoothLoop_spec :
    ∀ (fuel : ℕ) (p : List ℚ) (i N : ℕ), p.length = 2 * N → 2 ≤ i → N ≤ fuel + i →
      (Stroke.smoothLoop fuel p i).length = p.length ∧
      (∀ j, j < 2*i - 2 → (Stroke.smoothLoop fuel p i).getD j 0 = p.getD j 0) ∧
      (∀ j, 2*N - 2 ≤ j → (Stroke.smoothLoop fuel p i).getD j 0 = p.getD j 0) ∧
      (∀ k, i ≤ k → k < N →
        ((Stroke.smoothLoop fuel p i).getD (2*k - 2) 0,
         (Stroke.smoothLoop fuel p i).getD (2*k - 1) 0) =
          Stroke.bezier ((Stroke.smoothLoop fuel p i).getD (2*k - 4) 0)
                        ((Stroke.smoothLoop fuel p i).getD (2*k - 3) 0)
                        (p.getD (2*k - 2) 0) (p.getD (2*k - 1) 0)
                        (p.getD (2*k) 0) (p.getD (2*k + 1) 0)) := by
  intro fuel
  induction fuel with
  | zero =>
    intro p i N hlen h2 hN
    exact ⟨rfl, fun j _ => rfl, fun j _ => rfl,
      fun k hik hkN => absurd hkN (by omega)⟩
  | succ fuel ih =>
    intro p i N hlen h2 hN
    by_cases hcond : 2 * i < p.length
    · have hstep : Stroke.smoothLoop (fuel + 1) p i =
          Stroke.smoothLoop fuel
            ((p.set (2*i - 2)
                (Stroke.bezier (p.getD (2*i - 4) 0) (p.getD (2*i - 3) 0)
                        (p.getD (2*i - 2) 0) (p.getD (2*i - 1) 0)
                        (p.getD (2*i) 0) (p.getD (2*i + 1) 0)).1).set (2*i - 1)
                (Stroke.bezier (p.getD (2*i - 4) 0) (p.getD (2*i - 3) 0)
                        (p.getD (2*i - 2) 0) (p.getD (2*i - 1) 0)
                        (p.getD (2*i) 0) (p.getD (2*i + 1) 0)).2)
            (i + 1) := by
        rw [Stroke.smoothLoop, if_pos hcond]
      set X := (Stroke.bezier (p.getD (2*i - 4) 0) (p.getD (2*i - 3) 0)
                        (p.getD (2*i - 2) 0) (p.getD (2*i - 1) 0)
                        (p.getD (2*i) 0) (p.getD (2*i + 1) 0)).1 with hX
      set Y := (Stroke.bezier (p.getD (2*i - 4) 0) (p.getD (2*i - 3) 0)
                        (p.getD (2*i - 2) 0) (p.getD (2*i - 1) 0)
                        (p.getD (2*i) 0) (p.getD (2*i + 1) 0)).2 with hY
      set p' := (p.set (2*i - 2) X).set (2*i - 1) Y with hp'
      have hplen : p'.length = p.length := by simp [hp']
      obtain ⟨ihL, ihLo, ihHi, ihRec⟩ :=
        ih p' (i + 1) N (by omega) (by omega) (by omega)
      rw [hstep]
      have hq := ihL.trans hplen
      refine ⟨hq, ?_, ?_, ?_⟩
      · intro j hj
        rw [ihLo j (by omega), hp', getD_set_ne _ _ _ _ _ (by omega),
          getD_set_ne _ _ _ _ _ (by omega)]
      · intro j hj
        have hiN : 2 * i < 2 * N := by omega
        rw [ihHi j hj, hp', getD_set_ne _ _ _ _ _ (by omega),
          getD_set_ne _ _ _ _ _ (by omega)]
      · intro k hik hkN
        by_cases hk : k = i
        · subst hk
          have e1 : (Stroke.smoothLoop fuel p' (k + 1)).getD (2*k - 2) 0 = X := by
            rw [ihLo (2*k - 2) (by omega), hp',
              getD_set_ne _ _ _ _ _ (by omega),
              getD_set_self _ _ _ _ (by omega)]
          have e2 : (Stroke.smoothLoop fuel p' (k + 1)).getD (2*k - 1) 0 = Y := by
            rw [ihLo (2*k - 1) (by omega), hp',
              getD_set_self _ _ _ _ (by simp; omega)]
          have e3 : (Stroke.smoothLoop fuel p' (k + 1)).getD (2*k - 4) 0 =
              p.getD (2*k - 4) 0 := by
            rw [ihLo (2*k - 4) (by omega), hp',
              getD_set_ne _ _ _ _ _ (by omega), getD_set_ne _ _ _ _ _ (by omega)]
          have e4 : (Stroke.smoothLoop fuel p' (k + 1)).getD (2*k - 3) 0 =
              p.getD (2*k - 3) 0 := by
            rw [ihLo (2*k - 3) (by omega), hp',
              getD_set_ne _ _ _ _ _ (by omega), getD_set_ne _ _ _ _ _ (by omega)]
          rw [e1, e2, e3, e4, hX, hY]
        · have hik' : i + 1 ≤ k := by omega
          have hrec := ihRec k hik' hkN
          rw [hrec, hp',
            getD_set_ne _ _ _ _ _ (by omega), getD_set_ne _ _ _ _ _ (by omega),
            getD_set_ne _ _ _ _ _ (by omega), getD_set_ne _ _ _ _ _ (by omega),
            getD_set_ne _ _ _ _ _ (by omega), getD_set_ne _ _ _ _ _ (by omega),
            getD_set_ne _ _ _ _ _ (by omega), getD_set_ne _ _ _ _ _ (by omega)]
    · have hstep : Stroke.smoothLoop (fuel + 1) p i = p := by
        rw [Stroke.smoothLoop, if_neg hcond]
      rw [hstep]
      exact ⟨rfl, fun j _ => rfl, fun j _ => rfl,
        fun k hik hkN => absurd hkN (by omega)⟩

lemma erase_not_erasing (s : EraseState) (x y : ℚ) (h : s.isErasing = false) :
    erase s x y = some s := by
  simp [erase, h]

lemma erase_suppressed (s : EraseState) (x y : ℚ)
    (h : withinSquare x y s.lastX s.lastY 5 = true) :
    erase s x y = some s := by
  cases hE : s.isErasing <;> simp [erase, hE, h]

lemma erase_no_tile (s : EraseState) (x y : ℚ) (hE : s.isErasing = true)
    (hW : withinSquare x y s.lastX s.lastY 5 = false)
    (hT : getTileIdx s.tiles x y = none) :
    erase s x y = none := by
  simp [erase, hE, hW, hT]

lemma erase_empty_tile (s : EraseState) (x y : ℚ) (t : Tile)
    (hE : s.isErasing = true) (hT : s.tiles = [t])
    (hW : withinSquare x y s.lastX s.lastY 5 = false)
    (henc : t.enclosesVertex x y = true) (hemp : t.isEmpty = true) :
    erase s x y = some s := by
  simp [erase, hE, hW, hT, getTileIdx, henc, hemp]

lemma erase_step (s : EraseState) (x y : ℚ) (t : Tile)
    (hE : s.isErasing = true) (hT : s.tiles = [t])
    (hW : withinSquare x y s.lastX s.lastY 5 = false)
    (henc : t.enclosesVertex x y = true) (hne : t.isEmpty = false) :
    erase s x y =
      some { s with lastX := x, lastY := y, tiles := [eraseScan t x y] } := by
  simp [erase, hE, hW, hT, getTileIdx, henc, hne, List.set]

lemma eraseScan_last_hit (t : Tile) (x y : ℚ) (l : List Stroke) (B : Stroke)
    (hS : t.strokes = l ++ [B]) (hB : strokeHit B x y 5 = true) :
    eraseScan t x y = t.removeStroke B.getID := by
  have hn : t.numElements = l.length + 1 := by simp [Tile.numElements, hS]
  have hgd : t.strokes.getD l.length defaultStroke = B := by
    rw [hS]; exact getD_concat_self _ _ _
  have hrev : (List.range t.numElements).reverse =
      l.length :: (List.range l.length).reverse := by
    rw [hn, List.range_succ, List.reverse_append]; rfl
  have hpred : strokeHit (t.strokes.getD l.length defaultStroke) x y 5 = true := by
    rw [hgd]; exact hB
  have hfind : (List.range t.numElements).reverse.find?
      (fun i => strokeHit (t.strokes.getD i defaultStroke) x y 5) =
        some l.length := by
    rw [hrev]
    exact List.find?_cons_of_pos _ hpred
  unfold eraseScan
  rw [hfind]
  show t.removeStroke (t.strokes.getD l.length defaultStroke).getID =
    t.removeStroke B.getID
  rw [hgd]

lemma eraseScan_no_hit (t : Tile) (x y : ℚ)
    (h : ∀ st ∈ t.strokes, strokeHit st x y 5 = false) :
    eraseScan t x y = t := by
  have hfind : (List.range t.numElements).reverse.find?
      (fun i => strokeHit (t.strokes.getD i defaultStroke) x y 5) = none := by
    apply List.find?_eq_none.mpr
    intro i hi
    have hilt : i < t.strokes.length := by
      have := List.mem_range.mp (List.mem_reverse.mp hi)
      simpa [Tile.numElements] using this
    have hfalse := h _ (getD_mem defaultStroke t.strokes i hilt)
    simpa using hfalse
  unfold eraseScan
  rw [hfind]

lemma eraseScan_cases (t : Tile) (x y : ℚ) :
    eraseScan t x y = t ∨
      ∃ st, st ∈ t.strokes ∧ strokeHit st x y 5 = true ∧
        eraseScan t x y = t.removeStroke st.getID := by
  unfold eraseScan
  cases hf : (List.range t.numElements).reverse.find?
      (fun i => strokeHit (t.strokes.getD i defaultStroke) x y 5) with
  | none => exact Or.inl rfl
  | some i =>
    have hp := List.find?_some hf
    have hmem := List.mem_of_find?_eq_some hf
    have hilt : i < t.strokes.length := by
      have := List.mem_range.mp (List.mem_reverse.mp hmem)
      simpa [Tile.numElements] using this
    exact Or.inr ⟨t.strokes.getD i defaultStroke, getD_mem _ _ _ hilt, hp, rfl⟩

lemma removeStroke_of_not_contains (t : Tile) (k : ℕ)
    (h : t.strokeIDs.contains k = false) : t.removeStroke k = t := by
  unfold Tile.removeStroke
  rw [h]
  simp

lemma removeStroke_of_contains (t : Tile) (k : ℕ)
    (h : t.strokeIDs.contains k = true) :
    t.removeStroke k =
      { t with strokes := t.strokes.filter (fun s => s.getID != k)
               strokeIDs := t.strokeIDs.filter (fun j => j != k) } := by
  unfold Tile.removeStroke
  rw [h]
  simp

lemma filter_map_getID (k : ℕ) (l : List Stroke) :
    (l.filter (fun s => s.getID != k)).map Stroke.getID =
      (l.map Stroke.getID).filter (fun j => j != k) := by
  induction l with
  | nil => rfl
  | cons a tl ih =>
    by_cases h : (a.getID != k) = true
    · simp [List.filter_cons, h, ih]
    · simp only [Bool.not_eq_true] at h
      simp [List.filter_cons, h, ih]

lemma length_filter_getID (k : ℕ) (l : List Stroke)
    (h : (l.map Stroke.getID).Nodup) :
    l.length ≤ (l.filter (fun s => s.getID != k)).length + 1 := by
  induction l with
  | nil => simp
  | cons a tl ih =>
    rw [List.map_cons, List.nodup_cons] at h
    obtain ⟨hnotin, hnd⟩ := h
    by_cases hak : a.getID = k
    · have hfix : tl.filter (fun s => s.getID != k) = tl := by
        apply List.filter_eq_self.mpr
        intro b hb
        have hbk : b.getID ≠ k := by
          intro e
          exact hnotin (hak ▸ e ▸ List.mem_map_of_mem Stroke.getID hb)
        simpa [bne_iff_ne] using hbk
      have hdrop : (a.getID != k) = false := by simpa [bne_iff_ne] using hak
      rw [List.filter_cons, hdrop]
      simp [hfix]
    · have hkeep : (a.getID != k) = true := by simpa [bne_iff_ne] using hak
      rw [List.filter_cons, hkeep]
      have := ih hnd
      simp only [List.length_cons, if_true]
      omega

lemma reachable_strokeIDs_eq (t : Tile) (h : ReachableTile t) :
    t.strokeIDs = t.strokes.map Stroke.getID := by
  induction h with
  | fresh x y => rfl
  | add t s _ ih => simp [Tile.addStroke, ih]
  | remove t k _ ih =>
    by_cases hc : t.strokeIDs.contains k = true
    · rw [removeStroke_of_contains t k hc]
      simp only
      rw [ih, filter_map_getID]
    · rw [removeStroke_of_not_contains t k (by simpa using hc)]
      exact ih

lemma contains_nat_iff (l : List ℕ) (k : ℕ) : l.contains k = true ↔ k ∈ l := by
  induction l with
  | nil => simp
  | cons a tl ih =>
    rw [List.contains_cons]
    simp [ih]

lemma enclosesVertex_new_iff (x0 y0 x y : ℚ) :
    (Tile.new x0 y0).enclosesVertex x y = true ↔
      (x0 ≤ x ∧ x < x0 + Tile.size ∧ y0 ≤ y ∧ y < y0 + Tile.size) := by
  unfold Tile.enclosesVertex Tile.new
  simp only [Bool.and_eq_true, decide_eq_true_eq]
  constructor
  · rintro ⟨⟨⟨h1, h2⟩, h3⟩, h4⟩
    exact ⟨by linarith, by linarith, by linarith, by linarith⟩
  · rintro ⟨h1, h2, h3, h4⟩
    exact ⟨⟨⟨by linarith, by linarith⟩, by linarith⟩, by linarith⟩

/-! ### Claim theorems, witnesses and counterexamples -/

/-- Claim C1: for every stroke whose flat path holds `N ≥ 3` points,
`smoothPath` preserves the length, keeps the first and the last point, and
replaces each interior point `i ∈ [1, N-2]` by
`0.25*P[i-1] + 0.5*P[i] + 0.25*P[i+1]` where `P[i-1]` is the already-smoothed
previous point (sequential, in-place, left-to-right) while `P[i]` and
`P[i+1]` are pre-smoothing values; in particular the path
`[(0,0),(10,0),(10,10),(0,10)]` smoothed once yields point 1 = (7.5, 2.5) =
(15/2, 5/2) and point 2 = (6.875, 8.125) = (55/8, 65/8), endpoints
unchanged. -/
theorem smoothPath_interior_blend :
    (∀ (s : Stroke) (N : ℕ), s.path.length = 2 * N → 3 ≤ N →
      s.smoothPath.path.length = s.path.length ∧
      s.smoothPath.path.getD 0 0 = s.path.getD 0 0 ∧
      s.smoothPath.path.getD 1 0 = s.path.getD 1 0 ∧
      (∀ j, 2*N - 2 ≤ j → s.smoothPath.path.getD j 0 = s.path.getD j 0) ∧
      (∀ i, 1 ≤ i → i ≤ N - 2 →
        (s.smoothPath.path.getD (2*i) 0, s.smoothPath.path.getD (2*i + 1) 0) =
          Stroke.bezier (s.smoothPath.path.getD (2*i - 2) 0)
                        (s.smoothPath.path.getD (2*i - 1) 0)
                        (s.path.getD (2*i) 0) (s.path.getD (2*i + 1) 0)
                        (s.path.getD (2*i + 2) 0) (s.path.getD (2*i + 3) 0))) ∧
    exSmoothStroke.smoothPath =
      Stroke.make 7 [0, 0, 15/2, 5/2, 55/8, 65/8, 0, 10] := by
  constructor
  · intro s N hlen hN
    obtain ⟨hL, hLo, hHi, hRec⟩ :=
      smoothLoop_spec s.path.length s.path 2 N hlen (by omega) (by omega)
    have hpath : s.smoothPath.path = Stroke.smoothLoop s.path.length s.path 2 := rfl
    rw [hpath]
    refine ⟨hL, hLo 0 (by omega), hLo 1 (by omega), hHi, ?_⟩
    intro i h1 h2
    have hrec := hRec (i + 1) (by omega) (by omega)
    have e1 : 2*(i+1) - 2 = 2*i := by omega
    have e2 : 2*(i+1) - 1 = 2*i + 1 := by omega
    have e3 : 2*(i+1) - 4 = 2*i - 2 := by omega
    have e4 : 2*(i+1) - 3 = 2*i - 1 := by omega
    have e6 : 2*(i+1) + 1 = 2*i + 3 := by omega
    have e5 : 2*(i+1) = 2*i + 2 := by omega
    rw [e1, e2, e3, e4, e6, e5] at hrec
    exact hrec
  · norm_num [exSmoothStroke, Stroke.make, Stroke.smoothPath, Stroke.smoothLoop,
      Stroke.bezier, jsGet]

/-- Witness for C1: the hypotheses hold for the example path of 4 points, and
the interior recurrence instantiated at point 1. -/
theorem smoothPath_interior_blend_witness :
    (exSmoothStroke.path.length = 2 * 4 ∧ 3 ≤ 4 ∧ 1 ≤ 1 ∧ 1 ≤ 4 - 2) ∧
    (exSmoothStroke.smoothPath.path.getD 2 0,
     exSmoothStroke.smoothPath.path.getD 3 0) =
      Stroke.bezier (exSmoothStroke.smoothPath.path.getD 0 0)
                    (exSmoothStroke.smoothPath.path.getD 1 0)
                    (exSmoothStroke.path.getD 2 0) (exSmoothStroke.path.getD 3 0)
                    (exSmoothStroke.path.getD 4 0) (exSmoothStroke.path.getD 5 0) :=
  ⟨⟨rfl, by norm_num, by norm_num, by norm_num⟩,
    (smoothPath_interior_blend.1 exSmoothStroke 4 rfl (by norm_num)).2.2.2.2 1
      (by norm_num) (by norm_num)⟩

/-- Claim C7 (amended): tile containment is half-open on both axes —
`enclosesVertex` holds exactly on `[x0, x0+S) × [y0, y0+S)`, is false on the
far edges `x = x0+S` and `y = y0+S`, and is true at `(x0+S-eps, y0)` for any
eps with `0 < eps ≤ S` (the claim's "any eps > 0" holds only up to the tile
size, since beyond it the point leaves the tile on the left). -/
theorem enclosesVertex_half_open :
    (∀ x0 y0 x y : ℚ, (Tile.new x0 y0).enclosesVertex x y = true ↔
      (x0 ≤ x ∧ x < x0 + Tile.size ∧ y0 ≤ y ∧ y < y0 + Tile.size)) ∧
    (∀ x0 y0 y : ℚ, (Tile.new x0 y0).enclosesVertex (x0 + Tile.size) y = false) ∧
    (∀ x0 y0 x : ℚ, (Tile.new x0 y0).enclosesVertex x (y0 + Tile.size) = false) ∧
    (∀ x0 y0 eps : ℚ, 0 < eps → eps ≤ Tile.size →
      (Tile.new x0 y0).enclosesVertex (x0 + Tile.size - eps) y0 = true) := by
  refine ⟨enclosesVertex_new_iff, ?_, ?_, ?_⟩
  · intro x0 y0 y
    rw [Bool.eq_false_iff]
    intro h
    rw [enclosesVertex_new_iff] at h
    obtain ⟨_, h2, _, _⟩ := h
    linarith
  · intro x0 y0 x
    rw [Bool.eq_false_iff]
    intro h
    rw [enclosesVertex_new_iff] at h
    obtain ⟨_, _, _, h4⟩ := h
    linarith
  · intro x0 y0 eps heps hle
    rw [enclosesVertex_new_iff]
    have hS : (0:ℚ) < Tile.size := by norm_num [Tile.size]
    exact ⟨by linarith, by linarith, le_refl _, by linarith⟩

/-- Witness for C7 (amended): eps = 1 at the origin tile. -/
theorem enclosesVertex_half_open_witness :
    ((0:ℚ) < 1 ∧ (1:ℚ) ≤ Tile.size) ∧
    (Tile.new 0 0).enclosesVertex (0 + Tile.size - 1) 0 = true :=
  ⟨⟨by norm_num, by norm_num [Tile.size]⟩,
    enclosesVertex_half_open.2.2.2 0 0 1 (by norm_num) (by norm_num [Tile.size])⟩

/-- Counterexample to claim C7 as stated: it asserts containment of
`(x0+S-eps, y0)` for ANY eps > 0, but at eps = 3000 > S the point lies left
of the tile and `enclosesVertex` returns false. -/
theorem enclosesVertex_eps_beyond_size :
    (0:ℚ) < 3000 ∧
    (Tile.new 0 0).enclosesVertex (0 + Tile.size - 3000) 0 = false := by
  constructor
  · norm_num
  · rw [Bool.eq_false_iff]
    intro h
    rw [enclosesVertex_new_iff] at h
    obtain ⟨h1, _, _, _⟩ := h
    norm_num [Tile.size] at h1

/-- Claim C8 (amended): the vertex accessor is total — for an index `i < 0`
or `i ≥ N` (path of `N` points) `getPathVertex` returns the value
`[undefined, undefined]` (modelled `(none, none)`), raising no error; for
`0 ≤ i < N` it returns the point at index i. -/
theorem getPathVertex_total :
    ∀ (s : Stroke) (N : ℕ), s.path.length = 2 * N → ∀ i : ℤ,
      ((i < 0 ∨ (N:ℤ) ≤ i) → s.getPathVertex i = (none, none)) ∧
      (0 ≤ i → i < (N:ℤ) → ∃ a b, s.getPathVertex i = (some a, some b)) := by
  intro s N hlen i
  constructor
  · intro hout
    unfold Stroke.getPathVertex jsGet
    rcases hout with hneg | hge
    · rw [if_neg (by omega), if_neg (by omega)]
    · rw [if_pos (by omega), if_pos (by omega)]
      have h1 : s.path.length ≤ (i * 2).toNat := by omega
      have h2 : s.path.length ≤ (i * 2 + 1).toNat := by omega
      rw [List.get?_eq_none.mpr h1, List.get?_eq_none.mpr h2]
  · intro h0 hN
    unfold Stroke.getPathVertex jsGet
    rw [if_pos (by omega), if_pos (by omega)]
    have h1 : (i * 2).toNat < s.path.length := by omega
    have h2 : (i * 2 + 1).toNat < s.path.length := by omega
    exact ⟨_, _, by rw [List.get?_eq_get h1, List.get?_eq_get h2]⟩

/-- Witness for C8 (amended): on the one-point stroke, index 5 yields the
undefined pair and index 0 yields a real point. -/
theorem getPathVertex_total_witness :
    (exShort.path.length = 2 * 1 ∧ ((5:ℤ) < 0 ∨ (1:ℤ) ≤ 5) ∧
      (0:ℤ) ≤ 0 ∧ (0:ℤ) < (1:ℤ)) ∧
    exShort.getPathVertex 5 = (none, none) ∧
    (∃ a b, exShort.getPathVertex 0 = (some a, some b)) :=
  ⟨⟨rfl, Or.inr (by norm_num), by norm_num, by norm_num⟩,
    (getPathVertex_total exShort 1 rfl 5).1 (Or.inr (by norm_num)),
    (getPathVertex_total exShort 1 rfl 0).2 (by norm_num) (by norm_num)⟩

/-- Counterexample to claim C8 as stated: the accessor does NOT fail fast on
an out-of-range index — `getPathVertex(5)` and `getPathVertex(-1)` on a
one-point stroke return the value `[undefined, undefined]` (unchecked
JavaScript array indexing), not an IndexOutOfRange error. -/
theorem getPathVertex_returns_value_out_of_range :
    exShort.getPathVertex 5 = (none, none) ∧
    exShort.getPathVertex (-1) = (none, none) :=
  ⟨rfl, rfl⟩

/-- Claim C9 (amended): duplicate insertion is NOT rejected or ignored —
adding the same stroke twice deterministically appends it twice, so it
appears twice in the tile's stroke iteration and its id twice in
`strokeIDs`. -/
theorem addStroke_duplicates_append (t : Tile) (s : Stroke) :
    ((t.addStroke s).addStroke s).getStrokes = t.strokes ++ [s, s] ∧
    ((t.addStroke s).addStroke s).strokeIDs =
      t.strokeIDs ++ [s.getID, s.getID] := by
  constructor <;> simp [Tile.addStroke, Tile.getStrokes]

/-- Counterexample to claim C9 as stated: after inserting the same stroke
twice into a fresh tile it appears twice in the iteration. -/
theorem addStroke_duplicate_appears_twice :
    (((Tile.new 0 0).addStroke exShort).addStroke exShort).getStrokes =
      [exShort, exShort] ∧
    (((Tile.new 0 0).addStroke exShort).addStroke exShort).numElements = 2 :=
  ⟨rfl, rfl⟩

/-- Claim C10: for every tile reachable by `addStroke`/`removeStroke` from a
fresh tile, `strokeIDs` equals the ids of `strokes` element for element and
in order; hence `isEmpty` holds iff `numElements` is 0, and `removeStroke id`
removes exactly the stored strokes with that id. -/
theorem tile_lists_parallel (t : Tile) (h : ReachableTile t) :
    t.strokeIDs = t.strokes.map Stroke.getID ∧
    (t.isEmpty = true ↔ t.numElements = 0) ∧
    (∀ k, (t.removeStroke k).strokes =
      t.strokes.filter (fun s => s.getID != k)) := by
  have hinv := reachable_strokeIDs_eq t h
  refine ⟨hinv, ?_, ?_⟩
  · unfold Tile.isEmpty Tile.numElements
    rw [hinv, List.length_map]
    simp
  · intro k
    by_cases hc : t.strokeIDs.contains k = true
    · rw [removeStroke_of_contains t k hc]
    · have hc2 : t.strokeIDs.contains k = false := by simpa using hc
      rw [removeStroke_of_not_contains t k hc2]
      have hk : k ∉ t.strokeIDs := by
        intro hmem
        rw [(contains_nat_iff t.strokeIDs k).mpr hmem] at hc2
        cases hc2
      symm
      apply List.filter_eq_self.mpr
      intro b hb
      have hbk : b.getID ≠ k := by
        intro e
        exact hk (by rw [hinv, ← e]; exact List.mem_map_of_mem Stroke.getID hb)
      simpa [bne_iff_ne] using hbk

/-- Witness for C10: the invariant instantiated at a concrete reachable tile
(fresh tile plus one addStroke). -/
theorem tile_lists_parallel_witness :
    exTileR.strokeIDs = exTileR.strokes.map Stroke.getID ∧
    (exTileR.isEmpty = true ↔ exTileR.numElements = 0) ∧
    (∀ k, (exTileR.removeStroke k).strokes =
      exTileR.strokes.filter (fun s => s.getID != k)) :=
  tile_lists_parallel exTileR
    (ReachableTile.add (Tile.new 0 0) exShort (ReachableTile.fresh 0 0))

/-- Claim C2: the erase scan visits strokes newest-first.  On a tile holding
strokes A (added first) and B (added second), both within the erase radius of
the pointer, a non-suppressed erase removes B and leaves A; on a tile holding
only A (the state after that first erase), a further non-suppressed erase
removes A. -/
theorem erase_newest_first :
    (∀ (A B : Stroke) (s : EraseState) (x y : ℚ) (t : Tile),
      s.isErasing = true → s.tiles = [t] →
      withinSquare x y s.lastX s.lastY 5 = false →
      t.enclosesVertex x y = true →
      t.strokes = [A, B] → t.strokeIDs = [A.getID, B.getID] →
      A.getID ≠ B.getID →
      strokeHit A x y 5 = true → strokeHit B x y 5 = true →
      erase s x y = some ⟨s.isErasing, x, y,
        [⟨t.startX, t.startY, t.endX, t.endY, [A], [A.getID]⟩]⟩) ∧
    (∀ (A : Stroke) (s : EraseState) (x y : ℚ) (t : Tile),
      s.isErasing = true → s.tiles = [t] →
      withinSquare x y s.lastX s.lastY 5 = false →
      t.enclosesVertex x y = true →
      t.strokes = [A] → t.strokeIDs = [A.getID] →
      strokeHit A x y 5 = true →
      erase s x y = some ⟨s.isErasing, x, y,
        [⟨t.startX, t.startY, t.endX, t.endY, [], []⟩]⟩) := by
  constructor
  · intro A B s x y t hE hT hW henc hS hIDs hAB hHA hHB
    have hne : t.isEmpty = false := by simp [Tile.isEmpty, hIDs]
    rw [erase_step s x y t hE hT hW henc hne]
    have hscan : eraseScan t x y = t.removeStroke B.getID :=
      eraseScan_last_hit t x y [A] B (by rw [hS]; rfl) hHB
    have hcont : t.strokeIDs.contains B.getID = true := by
      rw [contains_nat_iff, hIDs]
      exact List.mem_cons_of_mem _ (List.mem_singleton.mpr rfl)
    rw [hscan, removeStroke_of_contains t B.getID hcont, hS, hIDs]
    have hfA : (A.getID != B.getID) = true := by simpa [bne_iff_ne] using hAB
    have hfB : (B.getID != B.getID) = false := by simp
    simp [List.filter_cons, hfA, hfB]
  · intro A s x y t hE hT hW henc hS hIDs hHA
    have hne : t.isEmpty = false := by simp [Tile.isEmpty, hIDs]
    rw [erase_step s x y t hE hT hW henc hne]
    have hscan : eraseScan t x y = t.removeStroke A.getID :=
      eraseScan_last_hit t x y [] A (by rw [hS]; rfl) hHA
    have hcont : t.strokeIDs.contains A.getID = true := by
      rw [contains_nat_iff, hIDs]
      exact List.mem_singleton.mpr rfl
    rw [hscan, removeStroke_of_contains t A.getID hcont, hS, hIDs]
    simp [List.filter_cons]

/-- Witness for C2: both parts at strokes `exA` (id 0), `exB` (id 1) through
(100, 100) on the origin tile. -/
theorem erase_newest_first_witness :
    (exStateAB.isErasing = true ∧ exStateAB.tiles = [exTileAB] ∧
      withinSquare 100 100 exStateAB.lastX exStateAB.lastY 5 = false ∧
      exTileAB.enclosesVertex 100 100 = true ∧
      exTileAB.strokes = [exA, exB] ∧
      exTileAB.strokeIDs = [exA.getID, exB.getID] ∧
      exA.getID ≠ exB.getID ∧
      strokeHit exA 100 100 5 = true ∧ strokeHit exB 100 100 5 = true) ∧
    erase exStateAB 100 100 = some ⟨exStateAB.isErasing, 100, 100,
      [⟨exTileAB.startX, exTileAB.startY, exTileAB.endX, exTileAB.endY,
        [exA], [exA.getID]⟩]⟩ ∧
    (exStateA.isErasing = true ∧ exStateA.tiles = [exTileA] ∧
      withinSquare 100 100 exStateA.lastX exStateA.lastY 5 = false ∧
      exTileA.enclosesVertex 100 100 = true ∧
      exTileA.strokes = [exA] ∧ exTileA.strokeIDs = [exA.getID] ∧
      strokeHit exA 100 100 5 = true) ∧
    erase exStateA 100 100 = some ⟨exStateA.isErasing, 100, 100,
      [⟨exTileA.startX, exTileA.startY, exTileA.endX, exTileA.endY, [], []⟩]⟩ :=
  ⟨⟨rfl, rfl, by norm_num [withinSquare, exStateAB, abs_le],
      by norm_num [Tile.enclosesVertex, exTileAB, exA, exB, Tile.addStroke,
        Tile.new, Tile.size, Stroke.make, jsGet],
      rfl, rfl, by decide,
      by norm_num [strokeHit, exA, Stroke.make, withinSquare, abs_le, range_one, jsGet],
      by norm_num [strokeHit, exB, Stroke.make, withinSquare, abs_le, range_two, jsGet]⟩,
    erase_newest_first.1 exA exB exStateAB 100 100 exTileAB rfl rfl
      (by norm_num [withinSquare, exStateAB, abs_le])
      (by norm_num [Tile.enclosesVertex, exTileAB, exA, exB, Tile.addStroke,
        Tile.new, Tile.size, Stroke.make, jsGet])
      rfl rfl (by decide)
      (by norm_num [strokeHit, exA, Stroke.make, withinSquare, abs_le, range_one, jsGet])
      (by norm_num [strokeHit, exB, Stroke.make, withinSquare, abs_le, range_two, jsGet]),
    ⟨rfl, rfl, by norm_num [withinSquare, exStateA, abs_le],
      by norm_num [Tile.enclosesVertex, exTileA, exA, Tile.addStroke,
        Tile.new, Tile.size, Stroke.make, jsGet],
      rfl, rfl,
      by norm_num [strokeHit, exA, Stroke.make, withinSquare, abs_le, range_one, jsGet]⟩,
    erase_newest_first.2 exA exStateA 100 100 exTileA rfl rfl
      (by norm_num [withinSquare, exStateA, abs_le])
      (by norm_num [Tile.enclosesVertex, exTileA, exA, Tile.addStroke,
        Tile.new, Tile.size, Stroke.make, jsGet])
      rfl rfl
      (by norm_num [strokeHit, exA, Stroke.make, withinSquare, abs_le, range_one, jsGet])⟩

/-- Claim C4: an erase event within the movement threshold (Chebyshev,
per-axis) of the last processed position does nothing at all — the state,
including `lastX`/`lastY` and every tile, is returned unchanged; a position
outside the square, e.g. (100,100) to (110,100), is not suppressed and the
scan proceeds (here removing the stroke under the pointer). -/
theorem erase_movement_suppression :
    (∀ (s : EraseState) (x y : ℚ),
      withinSquare x y s.lastX s.lastY 5 = true → erase s x y = some s) ∧
    (withinSquare 110 100 exStateNear.lastX exStateNear.lastY 5 = false ∧
      erase exStateNear 110 100 = some ⟨exStateNear.isErasing, 110, 100,
        [⟨exTileNear.startX, exTileNear.startY, exTileNear.endX,
          exTileNear.endY, [], []⟩]⟩) := by
  refine ⟨?_, ?_, ?_⟩
  · intro s x y h
    cases hE : s.isErasing with
    | false => exact erase_not_erasing s x y hE
    | true => exact erase_suppressed s x y h
  · norm_num [withinSquare, exStateNear, abs_le]
  · norm_num [erase, exStateNear, exTileNear, exNear, getTileIdx, eraseScan,
      strokeHit, withinSquare, Tile.new, Tile.size, Tile.addStroke,
      Tile.removeStroke, Tile.isEmpty, Tile.numElements, Tile.enclosesVertex,
      Stroke.make, Stroke.getID, defaultStroke, jsGet, abs_le, List.find?,
      range_one, range_two, range_three]

/-- Witness for C4: a suppressed event at (102, 103) after (100, 100), with a
stroke lying under the pointer, changes nothing. -/
theorem erase_movement_suppression_witness :
    withinSquare 102 103 exStateUnder.lastX exStateUnder.lastY 5 = true ∧
    erase exStateUnder 102 103 = some exStateUnder :=
  ⟨by norm_num [withinSquare, exStateUnder, abs_le],
    erase_movement_suppression.1 exStateUnder 102 103
      (by norm_num [withinSquare, exStateUnder, abs_le])⟩

/-- Claim C5 (amended): for every non-suppressed erase event (isErasing set)
whose pointer lies in an existing NON-EMPTY tile, `lastX`/`lastY` are set to
the event position before the stroke scan, regardless of whether any stroke
is hit; when the tile under the pointer is empty (or missing) the function
returns before the update, so the update is not unconditional. -/
theorem erase_sets_last_position (s : EraseState) (x y : ℚ) (t : Tile)
    (hE : s.isErasing = true) (hT : s.tiles = [t])
    (hW : withinSquare x y s.lastX s.lastY 5 = false)
    (henc : t.enclosesVertex x y = true) (hne : t.isEmpty = false) :
    ∃ newTiles, erase s x y =
      some { s with lastX := x, lastY := y, tiles := newTiles } :=
  ⟨[eraseScan t x y], erase_step s x y t hE hT hW henc hne⟩

/-- Witness for C5 (amended): a non-suppressed erase over a non-empty tile
whose only stroke is far away (no hit) still sets lastX/lastY. -/
theorem erase_sets_last_position_witness :
    (exStateFar.isErasing = true ∧ exStateFar.tiles = [exTileFar] ∧
      withinSquare 100 100 exStateFar.lastX exStateFar.lastY 5 = false ∧
      exTileFar.enclosesVertex 100 100 = true ∧ exTileFar.isEmpty = false) ∧
    (∃ newTiles, erase exStateFar 100 100 =
      some { exStateFar with lastX := 100, lastY := 100, tiles := newTiles }) :=
  ⟨⟨rfl, rfl, by norm_num [withinSquare, exStateFar, abs_le],
      by norm_num [Tile.enclosesVertex, exTileFar, exFar, Tile.addStroke,
        Tile.new, Tile.size, Stroke.make, jsGet], rfl⟩,
    erase_sets_last_position exStateFar 100 100 exTileFar rfl rfl
      (by norm_num [withinSquare, exStateFar, abs_le])
      (by norm_num [Tile.enclosesVertex, exTileFar, exFar, Tile.addStroke,
        Tile.new, Tile.size, Stroke.make, jsGet]) rfl⟩

/-- Counterexample to claim C5 as stated: a non-suppressed erase whose
pointer lies in an existing but EMPTY tile returns before the update, leaving
`lastX`/`lastY` unchanged (here still 0, not the event position 100). -/
theorem erase_empty_tile_no_position_update :
    exStateEmptyTile.isErasing = true ∧
    withinSquare 100 100 exStateEmptyTile.lastX exStateEmptyTile.lastY 5 = false ∧
    getTileIdx exStateEmptyTile.tiles 100 100 = some 0 ∧
    erase exStateEmptyTile 100 100 = some exStateEmptyTile ∧
    exStateEmptyTile.lastX ≠ 100 := by
  refine ⟨rfl, by norm_num [withinSquare, exStateEmptyTile, abs_le], ?_, ?_, ?_⟩
  · norm_num [getTileIdx, exStateEmptyTile, Tile.enclosesVertex, Tile.new, Tile.size]
  · exact erase_empty_tile exStateEmptyTile 100 100 (Tile.new 0 0) rfl rfl
      (by norm_num [withinSquare, exStateEmptyTile, abs_le])
      (by norm_num [Tile.enclosesVertex, Tile.new, Tile.size]) rfl
  · norm_num [exStateEmptyTile]

/-- Claim C6 evidence: erasing at a point outside every existing tile is NOT
a silent no-op — `getTile` returns null and the caller immediately calls
`isEmpty()` on it, throwing a TypeError (modelled by `erase` returning
`none`). -/
theorem erase_outside_tiles_crashes :
    getTileIdx exStateEmptyTile.tiles 3000 3000 = none ∧
    erase exStateEmptyTile 3000 3000 = none := by
  have hnone : getTileIdx exStateEmptyTile.tiles 3000 3000 = none := by
    norm_num [getTileIdx, exStateEmptyTile, Tile.enclosesVertex, Tile.new, Tile.size]
  exact ⟨hnone, erase_no_tile exStateEmptyTile 3000 3000 rfl
    (by norm_num [withinSquare, exStateEmptyTile, abs_le]) hnone⟩

/-- Claim C3: one erase call removes at most one stroke from the tile (the
tile's strokes carry pairwise-distinct ids, as the id allocator guarantees):
whenever `erase` returns (does not crash), the tile's stroke list is a
sublist of the old one, shrinks by at most one, and any change consists of
removing, by id, a single stroke that hit; with three overlapping strokes
through (100, 100), a single erase leaves exactly the two older ones. -/
theorem erase_at_most_one :
    (∀ (s : EraseState) (x y : ℚ) (t : Tile) (s2 : EraseState),
      s.tiles = [t] → (t.strokes.map Stroke.getID).Nodup →
      erase s x y = some s2 →
      ∃ t2, s2.tiles = [t2] ∧ t2.strokes.Sublist t.strokes ∧
        t.strokes.length ≤ t2.strokes.length + 1 ∧
        (t2.strokes ≠ t.strokes →
          ∃ st, st ∈ t.strokes ∧ strokeHit st x y 5 = true ∧
            t2.strokes = t.strokes.filter (fun u => u.getID != st.getID))) ∧
    erase exState3 100 100 = some ⟨exState3.isErasing, 100, 100,
      [⟨exTile3.startX, exTile3.startY, exTile3.endX, exTile3.endY,
        [exS1, exS2], [0, 1]⟩]⟩ := by
  constructor
  · intro s x y t s2 hT hnd hrun
    by_cases hE : s.isErasing = true
    · by_cases hW : withinSquare x y s.lastX s.lastY 5 = true
      · rw [erase_suppressed s x y hW] at hrun
        injection hrun with h
        subst h
        exact ⟨t, hT, List.Sublist.refl _, by omega, fun hc => absurd rfl hc⟩
      · have hW2 : withinSquare x y s.lastX s.lastY 5 = false := by
          simpa using hW
        by_cases henc : t.enclosesVertex x y = true
        · by_cases hemp : t.isEmpty = true
          · rw [erase_empty_tile s x y t hE hT hW2 henc hemp] at hrun
            injection hrun with h
            subst h
            exact ⟨t, hT, List.Sublist.refl _, by omega, fun hc => absurd rfl hc⟩
          · have hne : t.isEmpty = false := by simpa using hemp
            rw [erase_step s x y t hE hT hW2 henc hne] at hrun
            injection hrun with h
            subst h
            rcases eraseScan_cases t x y with hcase | ⟨st, hmem, hhit, hcase⟩
            · refine ⟨eraseScan t x y, rfl, ?_, ?_, ?_⟩
              · rw [hcase]
              · rw [hcase]
                omega
              · intro hc
                rw [hcase] at hc
                exact absurd rfl hc
            · by_cases hc2 : t.strokeIDs.contains st.getID = true
              · rw [removeStroke_of_contains t st.getID hc2] at hcase
                refine ⟨eraseScan t x y, rfl, ?_, ?_, ?_⟩
                · rw [hcase]
                  exact List.filter_sublist t.strokes
                · rw [hcase]
                  exact length_filter_getID st.getID t.strokes hnd
                · intro _
                  rw [hcase]
                  exact ⟨st, hmem, hhit, rfl⟩
              · rw [removeStroke_of_not_contains t st.getID (by simpa using hc2)]
                  at hcase
                refine ⟨eraseScan t x y, rfl, ?_, ?_, ?_⟩
                · rw [hcase]
                · rw [hcase]
                  omega
                · intro hc
                  rw [hcase] at hc
                  exact absurd rfl hc
        · have henc2 : t.enclosesVertex x y = false := by simpa using henc
          have hnone : getTileIdx s.tiles x y = none := by
            rw [hT]
            simp [getTileIdx, henc2]
          rw [erase_no_tile s x y hE hW2 hnone] at hrun
          cases hrun
    · have hE2 : s.isErasing = false := by simpa using hE
      rw [erase_not_erasing s x y hE2] at hrun
      injection hrun with h
      subst h
      exact ⟨t, hT, List.Sublist.refl _, by omega, fun hc => absurd rfl hc⟩
  · norm_num [erase, exState3, exTile3, exS1, exS2, exS3, getTileIdx,
      eraseScan, strokeHit, withinSquare, Tile.new, Tile.size, Tile.addStroke,
      Tile.removeStroke, Tile.isEmpty, Tile.numElements, Tile.enclosesVertex,
      Stroke.make, Stroke.getID, defaultStroke, jsGet, abs_le, List.find?,
      range_one, range_two, range_three]

/-- Witness for C3: the general part instantiated on the three-stroke tile,
its hypotheses discharged concretely. -/
theorem erase_at_most_one_witness :
    (exState3.tiles = [exTile3] ∧ (exTile3.strokes.map Stroke.getID).Nodup ∧
      erase exState3 100 100 = some ⟨exState3.isErasing, 100, 100,
        [⟨exTile3.startX, exTile3.startY, exTile3.endX, exTile3.endY,
          [exS1, exS2], [0, 1]⟩]⟩) ∧
    (∃ t2, (⟨exState3.isErasing, 100, 100,
        [⟨exTile3.startX, exTile3.startY, exTile3.endX, exTile3.endY,
          [exS1, exS2], [0, 1]⟩]⟩ : EraseState).tiles = [t2] ∧
      t2.strokes.Sublist exTile3.strokes ∧
      exTile3.strokes.length ≤ t2.strokes.length + 1 ∧
      (t2.strokes ≠ exTile3.strokes →
        ∃ st, st ∈ exTile3.strokes ∧ strokeHit st 100 100 5 = true ∧
          t2.strokes = exTile3.strokes.filter (fun u => u.getID != st.getID))) :=
  ⟨⟨rfl, by decide, erase_at_most_one.2⟩,
    erase_at_most_one.1 exState3 100 100 exTile3 _ rfl (by decide)
      erase_at_most_one.2⟩

end Drawing
